import Mathlib

/-!
Formal model of the catalog-generation core in `core/dbt/task/generate.py`:
the stat parser (`format_stats`), the row-grouping catalog builder
(`Catalog.get_table` / `Catalog.add_column`) and the manifest identity
resolver (`Catalog.make_unique_id_map` / `get_unique_id_mapping`).

Python dictionaries are modelled as association lists with first-match
lookup and replace-in-place insertion, which matches dict semantics on
duplicate-free key lists (every dict the pipeline builds has unique keys).
Python numbers (int and float collapsed) are modelled as rationals;
`int(x)` is truncation toward zero, exact for every float in the safe
integer range the spec guarantees.
-/

/-- A JSON-style primitive value as carried by a raw catalog row
(string, number, boolean, null). Python int and float are both `pNum`. -/
inductive Prim : Type where
  | pStr (s : String)
  | pNum (q : ℚ)
  | pBool (b : Bool)
  | pNull
deriving DecidableEq, Repr

abbrev PrimDict := List (String × Prim)

/-- First-match association-list lookup (Python `d[k]` / `k in d`). -/
def lookupA {α β : Type} [DecidableEq α] : List (α × β) → α → Option β
  | [], _ => none
  | (k, v) :: r, a => if k = a then some v else lookupA r a

/-- Replace the first binding of `a`, else append (Python `d[a] = b`). -/
def insertA {α β : Type} [DecidableEq α] : List (α × β) → α → β → List (α × β)
  | [], a, b => [(a, b)]
  | (k, v) :: r, a, b => if k = a then (a, b) :: r else (k, v) :: insertA r a b

/-- Python `str()` on a primitive. Non-integral numbers are rendered as
`num/den` (an approximation of Python float formatting; the pipeline only
ever stringifies identity fields, which are strings on every success path). -/
def pyStr : Prim → String
  | .pStr s => s
  | .pNum q => if q.den = 1 then toString q.num else toString q.num ++ "/" ++ toString q.den
  | .pBool b => if b then "True" else "False"
  | .pNull => "None"

/-- Truncation toward zero, Python `int()` applied to a number. -/
def ratTrunc (q : ℚ) : ℤ := Int.tdiv q.num q.den

/-- Python `int()` on a primitive: truncates numbers, maps booleans to 0/1,
fails (`TypeError`/`ValueError`) otherwise. String parsing is not modelled;
catalog rows carry numeric indexes. -/
def pyInt : Prim → Option ℤ
  | .pNum q => some (ratTrunc q)
  | .pBool b => some (if b then 1 else 0)
  | _ => none

/-- Python `str.startswith`, computed structurally on the character lists. -/
def strStarts (pre k : String) : Bool := pre.data.isPrefixOf k.data

/-- Dropping the first `n` characters, computed structurally. -/
def strDrop (k : String) (n : ℕ) : String := ⟨k.data.drop n⟩

/-- Lower-casing, computed structurally on the character list. -/
def lowerStr (s : String) : String := ⟨s.data.map Char.toLower⟩

/-- Function `get_stripped_prefix` from the source: every key/value pair whose key
starts with `pre`, with `pre` stripped from the returned keys. -/
def get_stripped (source : PrimDict) (pre : String) : PrimDict :=
  (source.filter (fun kv => strStarts pre kv.1)).map
    (fun kv => (strDrop kv.1 pre.length, kv.2))

/-- Errors raised by the generation core: the `CompilationException` for a
missing identity key, uncaught Python `KeyError` / `ValueError`, hologram
`ValidationError`, and the ambiguous-catalog-match exception. -/
inductive CatalogError : Type where
  | missingIdentity (key : String)
  | keyError (key : String)
  | valueError (what : String)
  | validationError (what : String)
  | ambiguousMatch (uid : String)
deriving DecidableEq, Repr

/-- Modelled from the spec: `CatalogKey` (from `dbt.contracts.results`, not
in the sources) is a plain (database, schema, name) triple, case-preserving;
case-folding happens only at the matching sites. -/
structure CatalogKey : Type where
  database : String
  schema : String
  name : String
deriving DecidableEq, Repr

/-- Modelled from the spec: `TableMetadata` (from `dbt.contracts.results`)
holds the table-level display fields `type`, `database`, `schema`, `name`
and an optional `comment`. -/
structure TableMetadata : Type where
  type_ : String
  database : String
  schema : String
  name : String
  comment : Option String
deriving DecidableEq, Repr

/-- Modelled from the spec: validation of a stripped `table_` mapping into
`TableMetadata` (hologram `from_dict`, not in the sources): the four display
fields must be present strings, `comment` is optional; failure raises
`ValidationError`. Unknown extra keys are ignored. -/
def TableMetadata.from_dict (d : PrimDict) : Except CatalogError TableMetadata :=
  match lookupA d "type", lookupA d "database", lookupA d "schema", lookupA d "name" with
  | some (.pStr ty), some (.pStr db), some (.pStr sc), some (.pStr nm) =>
    match lookupA d "comment" with
    | none => .ok ⟨ty, db, sc, nm, none⟩
    | some .pNull => .ok ⟨ty, db, sc, nm, none⟩
    | some (.pStr cm) => .ok ⟨ty, db, sc, nm, some cm⟩
    | some _ => .error (.validationError "table comment")
  | _, _, _, _ => .error (.validationError "table metadata")

/-- Modelled from the spec: `ColumnMetadata` — name, type, a non-negative
integer index, optional comment. -/
structure ColumnMetadata : Type where
  type_ : String
  index : ℤ
  name : String
  comment : Option String
deriving DecidableEq, Repr

/-- Modelled from the spec: validation of a stripped `column_` mapping into
`ColumnMetadata`: `type` and `name` must be strings, `index` an integral,
non-negative number, `comment` optional; `none` models `ValidationError`. -/
def ColumnMetadata.from_dict (d : PrimDict) : Option ColumnMetadata :=
  match lookupA d "type", lookupA d "name", lookupA d "index" with
  | some (.pStr ty), some (.pStr nm), some (.pNum q) =>
    if q.den = 1 ∧ 0 ≤ q.num then
      match lookupA d "comment" with
      | none => some ⟨ty, q.num, nm, none⟩
      | some .pNull => some ⟨ty, q.num, nm, none⟩
      | some (.pStr cm) => some ⟨ty, q.num, nm, some cm⟩
      | some _ => none
    else none
  | _, _, _ => none

/-- Modelled from the spec: `StatsItem` — id, label, value (non-null
primitive), description and the surface flag (`include` in the source,
named `incl` here). -/
structure StatsItem : Type where
  id : String
  label : String
  value : Prim
  description : String
  incl : Bool
deriving DecidableEq, Repr

/-- Modelled from the spec: validation of an assembled stat record
(hologram `StatsItem.from_dict`): id, label, description must be strings,
the surface flag a boolean, the value a non-null primitive; `none` models
`ValidationError`. -/
def StatsItem.from_dict (d : PrimDict) : Option StatsItem :=
  match lookupA d "id", lookupA d "label", lookupA d "value",
      lookupA d "description", lookupA d "include" with
  | some (.pStr i), some (.pStr l), some v, some (.pStr ds), some (.pBool b) =>
    if v = .pNull then none else some ⟨i, l, v, ds, b⟩
  | _, _, _, _, _ => none

abbrev StatsDict := List (String × StatsItem)

/-- The part of a key before the first colon, as Python split takes it. -/
def firstSeg (k : String) : String := ⟨k.data.takeWhile (fun c => c ≠ ':')⟩

/-- The distinct stat ids of a flat stats mapping, in first-occurrence
order (the source uses a Python set comprehension; iteration order there is
unspecified, first-occurrence order is one admissible order). -/
def base_keys (stats : PrimDict) : List String :=
  (stats.map (fun kv => firstSeg kv.1)).dedup

def statSubkeys : List String := ["label", "value", "description", "include"]

/-- Assembling the `dct` of `format_stats` for one id: first the id entry, then
the four sub-keys read under the colon-joined key; a missing sub-key is an uncaught
Python `KeyError`, exactly as in the source. -/
def statAssembleAux (stats : PrimDict) (key : String) :
    List String → PrimDict → Except CatalogError PrimDict
  | [], acc => .ok acc
  | sub :: rest, acc =>
    match lookupA stats (key ++ ":" ++ sub) with
    | none => .error (.keyError (key ++ ":" ++ sub))
    | some v => statAssembleAux stats key rest (insertA acc sub v)

def statAssemble (stats : PrimDict) (key : String) : Except CatalogError PrimDict :=
  statAssembleAux stats key statSubkeys [("id", Prim.pStr key)]

/-- The per-id loop body of `format_stats`: assemble, validate (a
`ValidationError` silently skips the id), keep only included stats. -/
def formatStatsAux (stats : PrimDict) :
    List String → StatsDict → Except CatalogError StatsDict
  | [], acc => .ok acc
  | key :: rest, acc =>
    match statAssemble stats key with
    | .error e => .error e
    | .ok dct =>
      match StatsItem.from_dict dct with
      | none => formatStatsAux stats rest acc
      | some it =>
        if it.incl then formatStatsAux stats rest (insertA acc key it)
        else formatStatsAux stats rest acc

/-- Function `format_stats` from the source: parse each id, keep the included ones,
then always store the synthetic `has_stats` item whose value records
whether any stat survived the include-filter. -/
def format_stats (stats : PrimDict) : Except CatalogError StatsDict :=
  match formatStatsAux stats (base_keys stats) [] with
  | .error e => .error e
  | .ok coll =>
    .ok (insertA coll "has_stats"
      { id := "has_stats", label := "Has Stats?",
        value := .pBool (decide (0 < coll.length)),
        description := "Indicates whether there are statistics for this table",
        incl := false })

/-- Modelled from the spec: `CatalogTable` (from `dbt.contracts.results`) —
metadata, a column mapping, a stats mapping, and the optional resolved
logical identifier. -/
structure CatalogTable : Type where
  metadata : TableMetadata
  columns : List (String × ColumnMetadata)
  stats : StatsDict
  unique_id : Option String
deriving DecidableEq, Repr

/-- Modelled from the spec: `CatalogTable.key()` (not in the sources) — the
case-folded physical key used for matching against the manifest. -/
def CatalogTable.key (t : CatalogTable) : CatalogKey :=
  ⟨lowerStr t.metadata.database, lowerStr t.metadata.schema, lowerStr t.metadata.name⟩

/-- Modelled from the spec: dataclass `replace`, annotating a table copy
with its resolved logical identifier. -/
def CatalogTable.replace (t : CatalogTable) (uid : String) : CatalogTable :=
  { t with unique_id := some uid }

abbrev Catalog := List (CatalogKey × CatalogTable)

/-- The `CatalogKey` computation of `Catalog.get_table`: the three identity
fields, read in source order and stringified, with the `KeyError` becoming
a `CompilationException` naming the missing key. No case folding. -/
def catalogKeyOf (data : PrimDict) : Except CatalogError CatalogKey :=
  match lookupA data "table_database" with
  | none => .error (.missingIdentity "table_database")
  | some d =>
    match lookupA data "table_schema" with
    | none => .error (.missingIdentity "table_schema")
    | some s =>
      match lookupA data "table_name" with
      | none => .error (.missingIdentity "table_name")
      | some n => .ok ⟨pyStr d, pyStr s, pyStr n⟩

def keyOfRow (data : PrimDict) : Option CatalogKey :=
  match catalogKeyOf data with
  | .ok k => some k
  | .error _ => none

/-- Function `build_catalog_table` from the source: metadata from the stripped
`table_` fields, stats from the stripped `stats:` fields, empty columns. -/
def build_catalog_table (data : PrimDict) : Except CatalogError CatalogTable :=
  match TableMetadata.from_dict (get_stripped data "table_") with
  | .error e => .error e
  | .ok md =>
    match format_stats (get_stripped data "stats:") with
    | .error e => .error e
    | .ok st => .ok { metadata := md, columns := [], stats := st, unique_id := none }

/-- The column phase of `Catalog.add_column`, run after `get_table` has
produced (and possibly inserted) the table `t` stored under `key` in `c`:
read `index` (uncaught `KeyError` if absent), coerce it with `int()`,
validate the column and store it under its name. The returned catalog on
an error path is the (possibly already mutated) input. -/
def addColTo (c : Catalog) (key : CatalogKey) (t : CatalogTable) (data : PrimDict) :
    Catalog × Option CatalogError :=
  let colData := get_stripped data "column_"
  match lookupA colData "index" with
  | none => (c, some (.keyError "index"))
  | some v =>
    match pyInt v with
    | none => (c, some (.valueError "index"))
    | some idx =>
      let colData2 := insertA colData "index" (.pNum (idx : ℚ))
      match ColumnMetadata.from_dict colData2 with
      | none => (c, some (.validationError "column"))
      | some col =>
        (insertA c key { t with columns := insertA t.columns col.name col }, none)

/-- Method `Catalog.add_column` (including the inlined `get_table`): compute the
key, look up or create the table (creation inserts it immediately), then
run the column phase. State is threaded explicitly so that mutations that
precede an exception are observable, as they are on the Python object. -/
def add_column (c : Catalog) (data : PrimDict) : Catalog × Option CatalogError :=
  match catalogKeyOf data with
  | .error e => (c, some e)
  | .ok key =>
    match lookupA c key with
    | some t => addColTo c key t data
    | none =>
      match build_catalog_table data with
      | .error e => (c, some e)
      | .ok t => addColTo (insertA c key t) key t data

/-- Constructor `Catalog.__init__`: fold `add_column` over the rows, stopping at the
first uncaught exception (whose partially mutated state is kept). -/
def catalogBuild : Catalog → List PrimDict → Catalog × Option CatalogError
  | c, [] => (c, none)
  | c, row :: rest =>
    match add_column c row with
    | (c', none) => catalogBuild c' rest
    | (c', some e) => (c', some e)

def buildCatalog (rows : List PrimDict) : Catalog × Option CatalogError :=
  catalogBuild [] rows

/-- Modelled from the spec: one manifest entry — a logical identifier bound
to a physical (database, schema, identifier) location. The manifest (not in
the sources) is modelled as the sequence of its entries. -/
structure ManifestEntry : Type where
  unique_id : String
  database : String
  schema : String
  identifier : String
deriving DecidableEq, Repr

/-- Function `mapping_key` from the source: the case-folded physical key of a
manifest entry. -/
def mapping_key (node : ManifestEntry) : CatalogKey :=
  ⟨lowerStr node.database, lowerStr node.schema, lowerStr node.identifier⟩

/-- Function `get_unique_id_mapping` from the source: index every manifest entry's
folded key to the list of logical identifiers bound to it, in order. -/
def get_unique_id_mapping (man : List ManifestEntry) : List (CatalogKey × List String) :=
  man.foldl
    (fun m e =>
      let k := mapping_key e
      match lookupA m k with
      | none => insertA m k [e.unique_id]
      | some l => insertA m k (l ++ [e.unique_id]))
    []

/-- The inner loop of `make_unique_id_map`: insert a table copy under each
identifier, raising the ambiguous-match exception on an identifier that is
already present. -/
def insertUnique (t : CatalogTable) :
    List String → List (String × CatalogTable) → Except CatalogError (List (String × CatalogTable))
  | [], nodes => .ok nodes
  | uid :: rest, nodes =>
    match lookupA nodes uid with
    | some _ => .error (.ambiguousMatch uid)
    | none => insertUnique t rest (insertA nodes uid (t.replace uid))

def makeUniqueAux (mapping : List (CatalogKey × List String)) :
    List CatalogTable → List (String × CatalogTable) →
    Except CatalogError (List (String × CatalogTable))
  | [], nodes => .ok nodes
  | t :: ts, nodes =>
    match insertUnique t ((lookupA mapping t.key).getD []) nodes with
    | .error e => .error e
    | .ok nodes' => makeUniqueAux mapping ts nodes'

def tablesOf (c : Catalog) : List CatalogTable := c.map Prod.snd

/-- Method `Catalog.make_unique_id_map` from the source: for every catalog table
in order, attach every logical identifier its folded key maps to. -/
def make_unique_id_map (c : Catalog) (man : List ManifestEntry) :
    Except CatalogError (List (String × CatalogTable)) :=
  makeUniqueAux (get_unique_id_mapping man) (tablesOf c) []

/-- The matched (identifier, table) pairs of a resolution run, in the
order `make_unique_id_map` visits them. -/
def matchedPairs (c : Catalog) (man : List ManifestEntry) : List (String × CatalogTable) :=
  (tablesOf c).flatMap
    (fun t => ((lookupA (get_unique_id_mapping man) t.key).getD []).map (fun uid => (uid, t)))

instance {ε α : Type} [DecidableEq ε] [DecidableEq α] : DecidableEq (Except ε α) := fun x y =>
  match x, y with
  | .ok a, .ok b =>
    if h : a = b then isTrue (congrArg Except.ok h) else isFalse (fun c => h (Except.ok.inj c))
  | .error e, .error f =>
    if h : e = f then isTrue (congrArg Except.error h)
    else isFalse (fun c => h (Except.error.inj c))
  | .ok _, .error _ => isFalse (fun c => Except.noConfusion c)
  | .error _, .ok _ => isFalse (fun c => Except.noConfusion c)

def hasStatsFalse : StatsItem :=
  { id := "has_stats", label := "Has Stats?", value := .pBool false,
    description := "Indicates whether there are statistics for this table", incl := false }

def rowNoIdx : PrimDict :=
  [("table_database", .pStr "d"), ("table_schema", .pStr "s"), ("table_name", .pStr "t"),
   ("table_type", .pStr "BASE TABLE"),
   ("column_name", .pStr "id"), ("column_type", .pStr "integer")]

def tableNoIdx : CatalogTable :=
  { metadata := ⟨"BASE TABLE", "d", "s", "t", none⟩,
    columns := [], stats := [("has_stats", hasStatsFalse)], unique_id := none }

def keyDst : CatalogKey := ⟨"d", "s", "t"⟩

def rowCaseU : PrimDict :=
  [("table_database", .pStr "D"), ("table_schema", .pStr "S"), ("table_name", .pStr "T"),
   ("table_type", .pStr "BASE TABLE"),
   ("column_name", .pStr "id"), ("column_index", .pNum 0), ("column_type", .pStr "integer")]

def rowCaseL : PrimDict :=
  [("table_database", .pStr "D"), ("table_schema", .pStr "S"), ("table_name", .pStr "t"),
   ("table_type", .pStr "BASE TABLE"),
   ("column_name", .pStr "id"), ("column_index", .pNum 0), ("column_type", .pStr "integer")]

def halfFifteen : ℚ := ⟨15, 2, by decide, by decide⟩

def rowFloatIdx : PrimDict :=
  [("table_database", .pStr "d"), ("table_schema", .pStr "s"), ("table_name", .pStr "t"),
   ("table_type", .pStr "BASE TABLE"),
   ("column_name", .pStr "id"), ("column_index", .pNum halfFifteen),
   ("column_type", .pStr "integer")]

def colTruncated : ColumnMetadata := ⟨"integer", 7, "id", none⟩

def tableFloat : CatalogTable :=
  { metadata := ⟨"BASE TABLE", "d", "s", "t", none⟩,
    columns := [("id", colTruncated)],
    stats := [("has_stats", hasStatsFalse)], unique_id := none }

def catFloat : Catalog := [(keyDst, tableFloat)]

/-- The validated stat item an id would yield: assemble its record and
validate it (`none` when a sub-key is missing the id cannot even reach
validation — assembly raises instead, so the id never yields an item). -/
def statsItemOf (stats : PrimDict) (key : String) : Option StatsItem :=
  match statAssemble stats key with
  | .ok d => StatsItem.from_dict d
  | .error _ => none

/-- Whether an id survives the include-filter of `format_stats`. -/
def survives (stats : PrimDict) (key : String) : Bool :=
  ((statsItemOf stats key).filter fun it => it.incl).isSome

def statsMixed : PrimDict :=
  [("a:label", .pStr "A"), ("a:value", .pNum 1), ("a:description", .pStr "da"),
   ("a:include", .pBool true),
   ("b:label", .pStr "B")]

def statsVal : PrimDict :=
  [("a:label", .pStr "A"), ("a:value", .pNum 1), ("a:description", .pStr "da"),
   ("a:include", .pBool true),
   ("b:label", .pStr "B"), ("b:value", .pNum 2), ("b:description", .pStr "db"),
   ("b:include", .pStr "yes")]

def itemA : StatsItem := ⟨"a", "A", .pNum 1, "da", true⟩

def hasStatsTrue : StatsItem :=
  { id := "has_stats", label := "Has Stats?", value := .pBool true,
    description := "Indicates whether there are statistics for this table", incl := false }

def rVal : StatsDict := [("a", itemA), ("has_stats", hasStatsTrue)]

/-- The matched pairs a key-to-identifiers index yields over a table list. -/
def pairsOf (mapping : List (CatalogKey × List String)) (ts : List CatalogTable) :
    List (String × CatalogTable) :=
  ts.flatMap (fun t => ((lookupA mapping t.key).getD []).map (fun uid => (uid, t)))

def tableCaseU : CatalogTable :=
  { metadata := ⟨"BASE TABLE", "d", "s", "T", none⟩,
    columns := [], stats := [("has_stats", hasStatsFalse)], unique_id := none }

def tableCaseL : CatalogTable :=
  { metadata := ⟨"BASE TABLE", "d", "s", "t", none⟩,
    columns := [], stats := [("has_stats", hasStatsFalse)], unique_id := none }

def catCase : Catalog := [(⟨"d", "s", "T"⟩, tableCaseU), (⟨"d", "s", "t"⟩, tableCaseL)]

def manOne : List ManifestEntry := [⟨"model.a", "d", "s", "t"⟩]

def tableDstResolved : CatalogTable := { tableNoIdx with unique_id := some "model.a" }

def tableDst2 : CatalogTable :=
  { metadata := ⟨"BASE TABLE", "d", "s", "t", none⟩,
    columns := [], stats := [("has_stats", hasStatsFalse)], unique_id := none }

def rowB1 : PrimDict :=
  [("table_database", .pStr "d"), ("table_schema", .pStr "s"), ("table_name", .pStr "t"),
   ("table_type", .pStr "BASE TABLE"),
   ("column_name", .pStr "id"), ("column_index", .pNum 0), ("column_type", .pStr "integer")]

def rowB2 : PrimDict :=
  [("table_database", .pStr "d"), ("table_schema", .pStr "s"), ("table_name", .pStr "t"),
   ("table_type", .pStr "VIEW"),
   ("column_name", .pStr "name"), ("column_index", .pNum 1), ("column_type", .pStr "text")]

def tableB : CatalogTable :=
  { metadata := ⟨"BASE TABLE", "d", "s", "t", none⟩,
    columns := [("id", ⟨"integer", 0, "id", none⟩), ("name", ⟨"text", 1, "name", none⟩)],
    stats := [("has_stats", hasStatsFalse)], unique_id := none }

section AssocLemmas

variable {α β : Type} [DecidableEq α]

theorem lookupA_insertA_self (m : List (α × β)) (k : α) (v : β) :
    lookupA (insertA m k v) k = some v := by
  induction m with
  | nil => simp [insertA, lookupA]
  | cons kv r ih =>
    by_cases h : kv.1 = k
    · simp [insertA, h, lookupA]
    · simp [insertA, h, lookupA, ih]

theorem lookupA_insertA_ne (m : List (α × β)) {k k' : α} (v : β) (h : k' ≠ k) :
    lookupA (insertA m k v) k' = lookupA m k' := by
  induction m with
  | nil =>
    simp only [insertA, lookupA]
    rw [if_neg (Ne.symm h)]
  | cons kv r ih =>
    obtain ⟨k₀, v₀⟩ := kv
    by_cases hk : k₀ = k
    · subst hk
      simp only [insertA, if_pos rfl, lookupA]
      rw [if_neg (Ne.symm h), if_neg (Ne.symm h)]
    · simp only [insertA, if_neg hk, lookupA]
      by_cases hk' : k₀ = k'
      · rw [if_pos hk', if_pos hk']
      · rw [if_neg hk', if_neg hk', ih]

theorem insertA_of_lookupA_eq {m : List (α × β)} {k : α} {v : β}
    (h : lookupA m k = some v) : insertA m k v = m := by
  induction m with
  | nil => simp [lookupA] at h
  | cons kv r ih =>
    by_cases hk : kv.1 = k
    · obtain ⟨k₀, v₀⟩ := kv
      simp only at hk
      subst hk
      simp [lookupA] at h
      simp [insertA, h]
    · simp [lookupA, hk] at h
      simp [insertA, hk, ih h]

theorem insertA_insertA (m : List (α × β)) (k : α) (v w : β) :
    insertA (insertA m k v) k w = insertA m k w := by
  induction m with
  | nil => simp [insertA]
  | cons kv r ih =>
    by_cases hk : kv.1 = k
    · simp [insertA, hk]
    · simp [insertA, hk, ih]

theorem insertA_of_lookupA_none {m : List (α × β)} {k : α} (v : β)
    (h : lookupA m k = none) : insertA m k v = m ++ [(k, v)] := by
  induction m with
  | nil => simp [insertA]
  | cons kv r ih =>
    by_cases hk : kv.1 = k
    · simp [lookupA, hk] at h
    · simp [lookupA, hk] at h
      simp [insertA, hk, ih h]

theorem lookupA_append_left {m₁ : List (α × β)} (m₂ : List (α × β)) {k : α} {v : β}
    (h : lookupA m₁ k = some v) : lookupA (m₁ ++ m₂) k = some v := by
  induction m₁ with
  | nil => simp [lookupA] at h
  | cons kv r ih =>
    by_cases hk : kv.1 = k
    · simp [lookupA, hk] at h ⊢
      exact h
    · simp [lookupA, hk] at h ⊢
      exact ih h

theorem lookupA_append_right {m₁ : List (α × β)} (m₂ : List (α × β)) {k : α}
    (h : lookupA m₁ k = none) : lookupA (m₁ ++ m₂) k = lookupA m₂ k := by
  induction m₁ with
  | nil => simp
  | cons kv r ih =>
    by_cases hk : kv.1 = k
    · simp [lookupA, hk] at h
    · simp [lookupA, hk] at h ⊢
      exact ih h

theorem lookupA_eq_none_iff {m : List (α × β)} {k : α} :
    lookupA m k = none ↔ k ∉ m.map Prod.fst := by
  induction m with
  | nil => simp [lookupA]
  | cons kv r ih =>
    obtain ⟨k₀, v₀⟩ := kv
    by_cases hk : k₀ = k
    · subst hk
      simp [lookupA]
    · simp only [lookupA, if_neg hk, List.map_cons, ih]
      constructor
      · intro hn hc
        rcases List.mem_cons.mp hc with hc | hc
        · exact hk (Eq.symm hc)
        · exact hn hc
      · intro hn hc
        exact hn (List.mem_cons_of_mem _ hc)

theorem map_fst_insertA {m : List (α × β)} {k : α} (v : β)
    (h : lookupA m k = none) : (insertA m k v).map Prod.fst = m.map Prod.fst ++ [k] := by
  rw [insertA_of_lookupA_none v h]
  simp

end AssocLemmas

theorem addColTo_ok {c c' : Catalog} {key : CatalogKey} {t : CatalogTable} {data : PrimDict}
    (h : addColTo c key t data = (c', none)) :
    ∃ v idx col,
      lookupA (get_stripped data "column_") "index" = some v ∧
      pyInt v = some idx ∧
      ColumnMetadata.from_dict
        (insertA (get_stripped data "column_") "index" (Prim.pNum (idx : ℚ))) = some col ∧
      c' = insertA c key { t with columns := insertA t.columns col.name col } := by
  simp only [addColTo] at h
  split at h
  · simp at h
  · split at h
    · simp at h
    · split at h
      · simp at h
      · rename_i x₁ v hv x₂ idx hi x₃ col hcol
        simp only [Prod.mk.injEq, and_true] at h
        exact ⟨v, idx, col, hv, hi, hcol, h.symm⟩

theorem add_column_ok_cases {c c' : Catalog} {data : PrimDict}
    (h : add_column c data = (c', none)) :
    ∃ key t, catalogKeyOf data = .ok key ∧
      ((lookupA c key = some t ∧ addColTo c key t data = (c', none)) ∨
       (lookupA c key = none ∧ build_catalog_table data = .ok t ∧
        addColTo (insertA c key t) key t data = (c', none))) := by
  simp only [add_column] at h
  split at h
  · simp at h
  · split at h
    · rename_i x₁ key hk x₂ t hl
      exact ⟨key, t, hk, Or.inl ⟨hl, h⟩⟩
    · split at h
      · simp at h
      · rename_i x₁ key hk x₂ hl x₃ t hb
        exact ⟨key, t, hk, Or.inr ⟨hl, hb, h⟩⟩

theorem add_column_of_shape {c' cb : Catalog} {key : CatalogKey} {t : CatalogTable}
    {data : PrimDict} {v : Prim} {idx : ℤ} {col : ColumnMetadata}
    (hk : catalogKeyOf data = .ok key)
    (hv : lookupA (get_stripped data "column_") "index" = some v)
    (hi : pyInt v = some idx)
    (hcol : ColumnMetadata.from_dict
      (insertA (get_stripped data "column_") "index" (Prim.pNum (idx : ℚ))) = some col)
    (hc' : c' = insertA cb key { t with columns := insertA t.columns col.name col }) :
    add_column c' data = (c', none) := by
  set t₂ : CatalogTable := { t with columns := insertA t.columns col.name col } with ht₂
  have hl : lookupA c' key = some t₂ := by
    rw [hc']
    exact lookupA_insertA_self cb key t₂
  have hcols : insertA t₂.columns col.name col = t₂.columns := by
    rw [ht₂]
    exact insertA_insertA t.columns col.name col col
  have ht₂' : { t₂ with columns := insertA t₂.columns col.name col } = t₂ := by
    rw [hcols]
  have hins : insertA c' key t₂ = c' := insertA_of_lookupA_eq hl
  simp only [add_column, hk, hl, addColTo, hv, hi, hcol, ht₂', hins]

theorem add_column_idem {c c' : Catalog} {data : PrimDict}
    (h : add_column c data = (c', none)) : add_column c' data = (c', none) := by
  obtain ⟨key, t, hk, hcase⟩ := add_column_ok_cases h
  rcases hcase with ⟨hl, hac⟩ | ⟨hl, hb, hac⟩ <;>
    obtain ⟨v, idx, col, hv, hi, hcol, hc'⟩ := addColTo_ok hac
  · exact add_column_of_shape hk hv hi hcol hc'
  · rw [insertA_insertA] at hc'
    exact add_column_of_shape hk hv hi hcol hc'

theorem catalogBuild_dup (r : PrimDict) (suf : List PrimDict) (c : Catalog) :
    catalogBuild c (r :: r :: suf) = catalogBuild c (r :: suf) := by
  simp only [catalogBuild]
  cases h : add_column c r with
  | mk c' eo =>
    cases eo with
    | none =>
      simp only [catalogBuild]
      rw [add_column_idem h]
    | some e => rfl

theorem catalogBuild_dup_middle (r : PrimDict) (suf : List PrimDict) :
    ∀ (pre : List PrimDict) (c : Catalog),
      catalogBuild c (pre ++ r :: r :: suf) = catalogBuild c (pre ++ r :: suf)
  | [], c => catalogBuild_dup r suf c
  | p :: pre, c => by
    simp only [List.cons_append, catalogBuild]
    cases h : add_column c p with
    | mk c' eo =>
      cases eo with
      | none => exact catalogBuild_dup_middle r suf pre c'
      | some e => rfl

/-- C5: `Catalog.__init__` is idempotent under row duplication — building
from a sequence in which a row is fed twice yields a catalog (and error
outcome) identical to building from the sequence with that row fed once. -/
theorem C5_build_duplicate_row_idempotent (pre suf : List PrimDict) (r : PrimDict) :
    buildCatalog (pre ++ r :: r :: suf) = buildCatalog (pre ++ r :: suf) :=
  catalogBuild_dup_middle r suf pre []

theorem catalogKeyOf_missing {data : PrimDict}
    (h : lookupA data "table_database" = none ∨ lookupA data "table_schema" = none ∨
      lookupA data "table_name" = none) :
    ∃ f, f ∈ ["table_database", "table_schema", "table_name"] ∧ lookupA data f = none ∧
      catalogKeyOf data = .error (.missingIdentity f) := by
  cases hd : lookupA data "table_database" with
  | none => exact ⟨"table_database", by simp, hd, by simp [catalogKeyOf, hd]⟩
  | some d =>
    cases hs : lookupA data "table_schema" with
    | none => exact ⟨"table_schema", by simp, hs, by simp [catalogKeyOf, hd, hs]⟩
    | some s =>
      cases hn : lookupA data "table_name" with
      | none => exact ⟨"table_name", by simp, hn, by simp [catalogKeyOf, hd, hs, hn]⟩
      | some n =>
        rcases h with h | h | h
        · rw [hd] at h; exact Option.noConfusion h
        · rw [hs] at h; exact Option.noConfusion h
        · rw [hn] at h; exact Option.noConfusion h

/-- C8: a row in which at least one of `table_database`, `table_schema`,
`table_name` is absent makes `add_column` fail with the compilation error
naming a missing identity field, and the catalog is returned unchanged
(no `TableEntry` is produced or modified for that row). -/
theorem C8_missing_identity_field (c : Catalog) (data : PrimDict)
    (h : lookupA data "table_database" = none ∨ lookupA data "table_schema" = none ∨
      lookupA data "table_name" = none) :
    ∃ f, f ∈ ["table_database", "table_schema", "table_name"] ∧ lookupA data f = none ∧
      add_column c data = (c, some (CatalogError.missingIdentity f)) := by
  obtain ⟨f, hf, hnone, hk⟩ := catalogKeyOf_missing h
  exact ⟨f, hf, hnone, by simp [add_column, hk]⟩

/-- Witness for C8 at a row carrying only `table_database`. -/
theorem C8_missing_identity_field_witness :
    ∃ f, f ∈ ["table_database", "table_schema", "table_name"] ∧
      lookupA [("table_database", Prim.pStr "d")] f = none ∧
      add_column [] [("table_database", Prim.pStr "d")] =
        ([], some (CatalogError.missingIdentity f)) :=
  C8_missing_identity_field [] [("table_database", Prim.pStr "d")] (by decide)

/-- C10: a row with full identity for a fresh key but without
`column_index` raises the uncaught `KeyError` only after the new table
(with metadata and stats, empty columns) has been inserted: the catalog is
mutated on this error path. -/
theorem C10_error_path_mutates_catalog (c : Catalog) (data : PrimDict)
    (key : CatalogKey) (t : CatalogTable)
    (hk : catalogKeyOf data = .ok key)
    (hfresh : lookupA c key = none)
    (hbuild : build_catalog_table data = .ok t)
    (hidx : lookupA (get_stripped data "column_") "index" = none) :
    add_column c data = (insertA c key t, some (CatalogError.keyError "index")) ∧
      t.columns = [] ∧ lookupA (insertA c key t) key = some t ∧ insertA c key t ≠ c := by
  have hcols : t.columns = [] := by
    simp only [build_catalog_table] at hbuild
    split at hbuild
    · simp at hbuild
    · split at hbuild
      · simp at hbuild
      · rw [Except.ok.injEq] at hbuild
        rw [← hbuild]
  refine ⟨?_, hcols, lookupA_insertA_self c key t, ?_⟩
  · simp [add_column, hk, hfresh, hbuild, addColTo, hidx]
  · intro he
    have h1 := lookupA_insertA_self c key t
    rw [he, hfresh] at h1
    exact Option.noConfusion h1

/-- Witness for C10 at a concrete fresh-key row lacking `column_index`. -/
theorem C10_error_path_mutates_catalog_witness :
    add_column [] rowNoIdx =
        (insertA [] keyDst tableNoIdx, some (CatalogError.keyError "index")) ∧
      tableNoIdx.columns = [] ∧
      lookupA (insertA [] keyDst tableNoIdx) keyDst = some tableNoIdx ∧
      insertA [] keyDst tableNoIdx ≠ [] :=
  C10_error_path_mutates_catalog [] rowNoIdx keyDst tableNoIdx
    (by decide) (by decide) (by decide) (by decide)

/-- Counterexample to C2: two rows whose identity fields differ only in the
case of `table_name` are grouped under two distinct keys, producing two
table entries rather than a single one. -/
theorem C2_counterexample_case_sensitive_grouping :
    (buildCatalog [rowCaseU, rowCaseL]).2 = none ∧
      ((buildCatalog [rowCaseU, rowCaseL]).1).map Prod.fst =
        [⟨"D", "S", "T"⟩, ⟨"D", "S", "t"⟩] := by decide

/-- C2 (amended): the key under which a row is grouped is the stringified
(case-preserved, not case-folded) identity triple; case-folding is applied
only on the manifest-matching side, by `mapping_key`. -/
theorem C2_amended_grouping_key_preserves_case (data : PrimDict) (d s n : Prim)
    (hd : lookupA data "table_database" = some d)
    (hs : lookupA data "table_schema" = some s)
    (hn : lookupA data "table_name" = some n) :
    catalogKeyOf data = .ok ⟨pyStr d, pyStr s, pyStr n⟩ ∧
      ∀ e : ManifestEntry,
        mapping_key e = ⟨lowerStr e.database, lowerStr e.schema, lowerStr e.identifier⟩ := by
  constructor
  · simp [catalogKeyOf, hd, hs, hn]
  · intro e
    rfl

/-- Witness for the amended C2 at a concrete row. -/
theorem C2_amended_grouping_key_preserves_case_witness :
    catalogKeyOf rowCaseU = .ok ⟨"D", "S", "T"⟩ ∧
      ∀ e : ManifestEntry,
        mapping_key e = ⟨lowerStr e.database, lowerStr e.schema, lowerStr e.identifier⟩ :=
  C2_amended_grouping_key_preserves_case rowCaseU
    (.pStr "D") (.pStr "S") (.pStr "T") (by decide) (by decide) (by decide)

theorem ColumnMetadata_from_dict_ok {d : PrimDict} {col : ColumnMetadata}
    (h : ColumnMetadata.from_dict d = some col) :
    ∃ ty nm q, lookupA d "type" = some (.pStr ty) ∧ lookupA d "name" = some (.pStr nm) ∧
      lookupA d "index" = some (.pNum q) ∧ q.den = 1 ∧ 0 ≤ q.num ∧
      col.type_ = ty ∧ col.index = q.num ∧ col.name = nm := by
  simp only [ColumnMetadata.from_dict] at h
  split at h
  · rename_i x₁ x₂ x₃ ty nm q hty hnm hq
    split at h
    · rename_i hcond
      split at h <;>
        first
          | (rw [Option.some.injEq] at h
             exact ⟨ty, nm, q, hty, hnm, hq, hcond.1, hcond.2,
               by rw [← h], by rw [← h], by rw [← h]⟩)
          | exact Option.noConfusion h
    · exact Option.noConfusion h
  · exact Option.noConfusion h

/-- C9: when `add_column` succeeds on a row whose `column_index` is a
numeric value (within the 64-bit-double safe-integer range, irrelevant in
this exact-arithmetic model), the stored index is that value truncated
toward zero — a non-negative integer — and the column is inserted into the
table's column mapping keyed by its name. -/
theorem C9_column_index_truncated (c c' : Catalog) (data : PrimDict) (q : ℚ) (nm : String)
    (hq : q ≤ 2 ^ 53)
    (hidx : lookupA (get_stripped data "column_") "index" = some (Prim.pNum q))
    (hnm : lookupA (get_stripped data "column_") "name" = some (Prim.pStr nm))
    (h : add_column c data = (c', none)) :
    ∃ key t col, catalogKeyOf data = .ok key ∧ lookupA c' key = some t ∧
      lookupA t.columns nm = some col ∧
      col.index = ratTrunc q ∧ 0 ≤ col.index ∧ col.name = nm := by
  obtain ⟨key, t0, hk, hcase⟩ := add_column_ok_cases h
  have hshape : ∃ cb v idx col,
      lookupA (get_stripped data "column_") "index" = some v ∧
      pyInt v = some idx ∧
      ColumnMetadata.from_dict
        (insertA (get_stripped data "column_") "index" (Prim.pNum (idx : ℚ))) = some col ∧
      c' = insertA cb key { t0 with columns := insertA t0.columns col.name col } := by
    rcases hcase with ⟨hl, hac⟩ | ⟨hl, hb, hac⟩
    · obtain ⟨v, idx, col, h1, h2, h3, h4⟩ := addColTo_ok hac
      exact ⟨c, v, idx, col, h1, h2, h3, h4⟩
    · obtain ⟨v, idx, col, h1, h2, h3, h4⟩ := addColTo_ok hac
      exact ⟨insertA c key t0, v, idx, col, h1, h2, h3, h4⟩
  obtain ⟨cb, v, idx, col, hv, hi, hcol, hc'⟩ := hshape
  rw [hidx] at hv
  have hvq : v = Prim.pNum q := (Option.some.inj hv).symm
  subst hvq
  simp only [pyInt, Option.some.injEq] at hi
  obtain ⟨ty, nm', q', hty, hnm', hq', hden, hnum, hcty, hcidx, hcnm⟩ :=
    ColumnMetadata_from_dict_ok hcol
  have hnm2 : lookupA (insertA (get_stripped data "column_") "index"
      (Prim.pNum (idx : ℚ))) "name" = some (Prim.pStr nm) := by
    rw [lookupA_insertA_ne _ _ (by decide)]
    exact hnm
  rw [hnm'] at hnm2
  have hnmeq : nm' = nm := Prim.pStr.inj (Option.some.inj hnm2)
  have hq2 : lookupA (insertA (get_stripped data "column_") "index"
      (Prim.pNum (idx : ℚ))) "index" = some (Prim.pNum (idx : ℚ)) :=
    lookupA_insertA_self _ _ _
  rw [hq'] at hq2
  have hqeq : q' = (idx : ℚ) := Prim.pNum.inj (Option.some.inj hq2)
  have hcidx' : col.index = ratTrunc q := by
    rw [hcidx, hqeq, Rat.num_intCast, ← hi]
  refine ⟨key, { t0 with columns := insertA t0.columns col.name col }, col, hk, ?_, ?_,
    hcidx', ?_, ?_⟩
  · rw [hc']
    exact lookupA_insertA_self _ _ _
  · show lookupA (insertA t0.columns col.name col) nm = some col
    rw [hcnm, hnmeq]
    exact lookupA_insertA_self _ _ _
  · rw [hcidx]
    exact hnum
  · rw [hcnm, hnmeq]

/-- Witness for C9 at a row whose column index arrives as the float 7.5. -/
theorem C9_column_index_truncated_witness :
    ∃ key t col, catalogKeyOf rowFloatIdx = .ok key ∧ lookupA catFloat key = some t ∧
      lookupA t.columns "id" = some col ∧
      col.index = ratTrunc halfFifteen ∧ 0 ≤ col.index ∧ col.name = "id" :=
  C9_column_index_truncated [] catFloat rowFloatIdx halfFifteen "id"
    (by decide) (by decide) (by decide) (by decide)

section MoreAssocLemmas

variable {α β : Type} [DecidableEq α]

theorem mem_insertA {m : List (α × β)} {k : α} {v : β} {kv : α × β}
    (h : kv ∈ insertA m k v) : kv ∈ m ∨ kv = (k, v) := by
  induction m with
  | nil =>
    simp [insertA] at h
    exact Or.inr h
  | cons kv₀ r ih =>
    by_cases hk : kv₀.1 = k
    · obtain ⟨k₀, v₀⟩ := kv₀
      simp only at hk
      subst hk
      simp only [insertA, if_pos rfl] at h
      rcases List.mem_cons.mp h with h | h
      · exact Or.inr h
      · exact Or.inl (List.mem_cons_of_mem _ h)
    · simp only [insertA, if_neg hk] at h
      rcases List.mem_cons.mp h with h | h
      · exact Or.inl (h ▸ List.mem_cons_self _ _)
      · rcases ih h with h | h
        · exact Or.inl (List.mem_cons_of_mem _ h)
        · exact Or.inr h

theorem map_fst_insertA_of_some {m : List (α × β)} {k : α} {v : β} (w : β)
    (h : lookupA m k = some v) : (insertA m k w).map Prod.fst = m.map Prod.fst := by
  induction m with
  | nil => simp [lookupA] at h
  | cons kv₀ r ih =>
    by_cases hk : kv₀.1 = k
    · obtain ⟨k₀, v₀⟩ := kv₀
      simp only at hk
      subst hk
      simp [insertA]
    · simp only [lookupA, if_neg hk] at h
      simp [insertA, hk, ih h]

theorem mem_map_fst_of_lookupA {m : List (α × β)} {k : α} {v : β}
    (h : lookupA m k = some v) : k ∈ m.map Prod.fst := by
  by_contra hc
  rw [← lookupA_eq_none_iff] at hc
  rw [h] at hc
  exact Option.noConfusion hc

theorem countP_eq_zero_of_not_mem {l : List α} {x : α} (h : x ∉ l) :
    l.countP (fun a => decide (a = x)) = 0 := by
  induction l with
  | nil => rfl
  | cons a l ih =>
    have hax : ¬(a = x) := fun e => h (e ▸ List.mem_cons_self a l)
    rw [List.countP_cons]
    simp [hax, ih (fun hm => h (List.mem_cons_of_mem _ hm))]

theorem countP_eq_one_of_nodup_mem {l : List α} {x : α} (hn : l.Nodup) (hm : x ∈ l) :
    l.countP (fun a => decide (a = x)) = 1 := by
  induction l with
  | nil => cases hm
  | cons a l ih =>
    obtain ⟨hna, hnl⟩ := List.nodup_cons.mp hn
    rw [List.countP_cons]
    rcases List.mem_cons.mp hm with hm | hm
    · subst hm
      simp [countP_eq_zero_of_not_mem hna]
    · have hax : ¬(a = x) := fun e => hna (e ▸ hm)
      simp [hax, ih hnl hm]

theorem filter_ne_nil_iff {p : α → Bool} :
    ∀ {l : List α}, l.filter p ≠ [] ↔ ∃ a ∈ l, p a = true := by
  intro l
  induction l with
  | nil => simp
  | cons a l ih =>
    by_cases hp : p a = true
    · rw [List.filter_cons, if_pos hp]
      exact iff_of_true (by simp) ⟨a, List.mem_cons_self a l, hp⟩
    · rw [List.filter_cons, if_neg hp]
      rw [ih]
      constructor
      · rintro ⟨b, hb, hpb⟩
        exact ⟨b, List.mem_cons_of_mem _ hb, hpb⟩
      · rintro ⟨b, hb, hpb⟩
        rcases List.mem_cons.mp hb with hb | hb
        · exact absurd (hb ▸ hpb) hp
        · exact ⟨b, hb, hpb⟩

end MoreAssocLemmas

theorem statAssembleAux_ok {stats : PrimDict} {key : String} :
    ∀ (subs : List String) (acc : PrimDict),
      (∀ sub ∈ subs, (lookupA stats (key ++ ":" ++ sub)).isSome = true) →
      ∃ d, statAssembleAux stats key subs acc = .ok d
  | [], acc, _ => ⟨acc, rfl⟩
  | sub :: subs, acc, h => by
    have h1 := h sub (List.mem_cons_self sub subs)
    cases hl : lookupA stats (key ++ ":" ++ sub) with
    | none => rw [hl] at h1; exact absurd h1 (by simp)
    | some v =>
      obtain ⟨d, hd⟩ := statAssembleAux_ok subs (insertA acc sub v)
        (fun s hs => h s (List.mem_cons_of_mem _ hs))
      exact ⟨d, by simp only [statAssembleAux, hl]; exact hd⟩

theorem statAssembleAux_id {stats : PrimDict} {key : String} :
    ∀ (subs : List String) (acc d : PrimDict),
      "id" ∉ subs → lookupA acc "id" = some (.pStr key) →
      statAssembleAux stats key subs acc = .ok d →
      lookupA d "id" = some (.pStr key)
  | [], acc, d, _, hacc, h => by
    have h' : acc = d := Except.ok.inj h
    rw [← h']
    exact hacc
  | sub :: subs, acc, d, hns, hacc, h => by
    have hne : "id" ≠ sub := fun e => hns (by rw [e]; exact List.mem_cons_self sub subs)
    simp only [statAssembleAux] at h
    cases hl : lookupA stats (key ++ ":" ++ sub) with
    | none => rw [hl] at h; exact absurd h (by simp)
    | some v =>
      rw [hl] at h
      exact statAssembleAux_id subs (insertA acc sub v) d
        (fun hm => hns (List.mem_cons_of_mem _ hm))
        (by rw [lookupA_insertA_ne _ _ hne]; exact hacc) h

theorem StatsItem_from_dict_id {d : PrimDict} {it : StatsItem}
    (h : StatsItem.from_dict d = some it) :
    lookupA d "id" = some (.pStr it.id) := by
  simp only [StatsItem.from_dict] at h
  split at h
  · rename_i x₁ x₂ x₃ x₄ x₅ i l v ds b hid hl hv hds hb
    split at h
    · exact Option.noConfusion h
    · rw [Option.some.injEq] at h
      rw [← h]
      exact hid
  · exact Option.noConfusion h

theorem statsItemOf_id {stats : PrimDict} {key : String} {it : StatsItem}
    (h : statsItemOf stats key = some it) : it.id = key := by
  simp only [statsItemOf] at h
  cases ha : statAssemble stats key with
  | error e => rw [ha] at h; exact Option.noConfusion h
  | ok d =>
    rw [ha] at h
    have hid : lookupA d "id" = some (.pStr key) :=
      statAssembleAux_id statSubkeys [("id", Prim.pStr key)] d (by decide)
        (by simp [lookupA]) ha
    have hid2 := StatsItem_from_dict_id h
    rw [hid] at hid2
    exact (Prim.pStr.inj (Option.some.inj hid2)).symm

theorem formatStatsAux_spec {stats : PrimDict} :
    ∀ (ks : List String) (acc r : StatsDict),
      ks.Nodup →
      (∀ k ∈ ks, lookupA acc k = none) →
      formatStatsAux stats ks acc = .ok r →
      (∀ key, lookupA r key =
        if key ∈ ks then (statsItemOf stats key).filter (fun it => it.incl)
        else lookupA acc key) ∧
      r.map Prod.fst = acc.map Prod.fst ++ ks.filter (fun k => survives stats k) ∧
      ((∀ kv ∈ acc, kv.2.id = kv.1) → ∀ kv ∈ r, kv.2.id = kv.1)
  | [], acc, r, _, _, h => by
    have hr : acc = r := Except.ok.inj h
    subst hr
    exact ⟨fun key => by simp, by simp, fun hid => hid⟩
  | k :: ks, acc, r, hnd, hdisj, h => by
    have hknotin : k ∉ ks := (List.nodup_cons.mp hnd).1
    have hnd' : ks.Nodup := (List.nodup_cons.mp hnd).2
    have hacck : lookupA acc k = none := hdisj k (List.mem_cons_self k ks)
    simp only [formatStatsAux] at h
    cases ha : statAssemble stats k with
    | error e => rw [ha] at h; exact absurd h (by simp)
    | ok d =>
      rw [ha] at h
      replace h : (match StatsItem.from_dict d with
          | none => formatStatsAux stats ks acc
          | some it =>
            if it.incl = true then formatStatsAux stats ks (insertA acc k it)
            else formatStatsAux stats ks acc) = Except.ok r := h
      have hio : statsItemOf stats k = StatsItem.from_dict d := by
        simp only [statsItemOf, ha]
      cases hfd : StatsItem.from_dict d with
      | none =>
        rw [hfd] at h
        obtain ⟨c1, c2, c3⟩ := formatStatsAux_spec ks acc r hnd'
          (fun k' hk' => hdisj k' (List.mem_cons_of_mem _ hk')) h
        refine ⟨fun key => ?_, ?_, c3⟩
        · by_cases hkey : key = k
          · subst hkey
            rw [c1 key, if_neg hknotin, hacck, if_pos (List.mem_cons_self key ks),
              hio, hfd]
            rfl
          · rw [c1 key]
            by_cases hmem : key ∈ ks
            · rw [if_pos hmem, if_pos (List.mem_cons_of_mem _ hmem)]
            · rw [if_neg hmem, if_neg (by
                intro hc
                rcases List.mem_cons.mp hc with hc | hc
                · exact hkey hc
                · exact hmem hc)]
        · have hs : survives stats k = false := by
            simp [survives, hio, hfd]
          rw [List.filter_cons, hs]
          simpa using c2
      | some it =>
        rw [hfd] at h
        replace h : (if it.incl = true then formatStatsAux stats ks (insertA acc k it)
            else formatStatsAux stats ks acc) = Except.ok r := h
        cases hincl : it.incl with
        | false =>
          rw [hincl] at h
          simp only [Bool.false_eq_true, if_false] at h
          obtain ⟨c1, c2, c3⟩ := formatStatsAux_spec ks acc r hnd'
            (fun k' hk' => hdisj k' (List.mem_cons_of_mem _ hk')) h
          refine ⟨fun key => ?_, ?_, c3⟩
          · by_cases hkey : key = k
            · subst hkey
              rw [c1 key, if_neg hknotin, hacck, if_pos (List.mem_cons_self key ks),
                hio, hfd]
              simp [Option.filter, hincl]
            · rw [c1 key]
              by_cases hmem : key ∈ ks
              · rw [if_pos hmem, if_pos (List.mem_cons_of_mem _ hmem)]
              · rw [if_neg hmem, if_neg (by
                  intro hc
                  rcases List.mem_cons.mp hc with hc | hc
                  · exact hkey hc
                  · exact hmem hc)]
          · have hs : survives stats k = false := by
              simp [survives, hio, hfd, Option.filter, hincl]
            rw [List.filter_cons, hs]
            simpa using c2
        | true =>
          rw [hincl] at h
          simp only [if_true] at h
          have hdisj' : ∀ k' ∈ ks, lookupA (insertA acc k it) k' = none := by
            intro k' hk'
            rw [lookupA_insertA_ne _ _ (fun e => hknotin (by rw [← e]; exact hk'))]
            exact hdisj k' (List.mem_cons_of_mem _ hk')
          obtain ⟨c1, c2, c3⟩ := formatStatsAux_spec ks (insertA acc k it) r hnd' hdisj' h
          refine ⟨fun key => ?_, ?_, ?_⟩
          · by_cases hkey : key = k
            · subst hkey
              rw [c1 key, if_neg hknotin, lookupA_insertA_self,
                if_pos (List.mem_cons_self key ks), hio, hfd]
              simp [Option.filter, hincl]
            · rw [c1 key]
              by_cases hmem : key ∈ ks
              · rw [if_pos hmem, if_pos (List.mem_cons_of_mem _ hmem)]
              · rw [if_neg hmem, if_neg (by
                  intro hc
                  rcases List.mem_cons.mp hc with hc | hc
                  · exact hkey hc
                  · exact hmem hc),
                  lookupA_insertA_ne _ _ hkey]
          · have hs : survives stats k = true := by
              simp [survives, hio, hfd, Option.filter, hincl]
            rw [List.filter_cons, hs]
            rw [c2, map_fst_insertA it hacck]
            simp
          · intro hid
            refine c3 ?_
            intro kv hkv
            rcases mem_insertA hkv with hkv | hkv
            · exact hid kv hkv
            · rw [hkv]
              exact statsItemOf_id (by rw [hio, hfd])

theorem formatStatsAux_total {stats : PrimDict} :
    ∀ (ks : List String) (acc : StatsDict),
      (∀ k ∈ ks, ∀ sub ∈ statSubkeys, (lookupA stats (k ++ ":" ++ sub)).isSome = true) →
      ∃ r, formatStatsAux stats ks acc = .ok r
  | [], acc, _ => ⟨acc, rfl⟩
  | k :: ks, acc, h => by
    obtain ⟨d, hd⟩ := statAssembleAux_ok statSubkeys [("id", Prim.pStr k)]
      (h k (List.mem_cons_self k ks))
    have ha : statAssemble stats k = .ok d := hd
    have hrest : ∀ k' ∈ ks, ∀ sub ∈ statSubkeys,
        (lookupA stats (k' ++ ":" ++ sub)).isSome = true :=
      fun k' hk' => h k' (List.mem_cons_of_mem _ hk')
    cases hfd : StatsItem.from_dict d with
    | none =>
      obtain ⟨r, hr⟩ := formatStatsAux_total ks acc hrest
      exact ⟨r, by simp only [formatStatsAux, ha, hfd]; exact hr⟩
    | some it =>
      cases hincl : it.incl with
      | true =>
        obtain ⟨r, hr⟩ := formatStatsAux_total ks (insertA acc k it) hrest
        exact ⟨r, by simp only [formatStatsAux, ha, hfd, hincl, if_true]; exact hr⟩
      | false =>
        obtain ⟨r, hr⟩ := formatStatsAux_total ks acc hrest
        exact ⟨r, by
          simp only [formatStatsAux, ha, hfd, hincl, Bool.false_eq_true, if_false]
          exact hr⟩

/-- Counterexample to C1: an id (`b`) with a missing required sub-key is
not dropped silently — `format_stats` raises the uncaught `KeyError`, and
the well-formed id `a` is lost with it. -/
theorem C1_counterexample_missing_subkey_raises :
    format_stats statsMixed = .error (.keyError "b:value") := by decide

/-- C1 (amended): when every derived stat id has all four sub-keys present,
`format_stats` succeeds without raising, silently dropping exactly the ids
whose assembled record fails validation; every other id is unaffected,
mapping to the item assembled from its own sub-keys, filtered by include.
(An id with a sub-key missing altogether instead raises an uncaught
`KeyError`.) -/
theorem C1_amended_validation_failures_dropped (stats : PrimDict)
    (hall : ∀ k ∈ base_keys stats, ∀ sub ∈ statSubkeys,
      (lookupA stats (k ++ ":" ++ sub)).isSome = true) :
    ∃ r, format_stats stats = .ok r ∧
      ∀ key, key ≠ "has_stats" →
        lookupA r key = if key ∈ base_keys stats
          then (statsItemOf stats key).filter (fun it => it.incl) else none := by
  obtain ⟨coll, hcoll⟩ := formatStatsAux_total (base_keys stats) [] hall
  obtain ⟨c1, c2, c3⟩ := formatStatsAux_spec (base_keys stats) [] coll
    (List.nodup_dedup _) (fun k _ => rfl) hcoll
  refine ⟨insertA coll "has_stats"
    { id := "has_stats", label := "Has Stats?",
      value := .pBool (decide (0 < coll.length)),
      description := "Indicates whether there are statistics for this table",
      incl := false }, ?_, fun key hkey => ?_⟩
  · simp only [format_stats, hcoll]
  · rw [lookupA_insertA_ne _ _ hkey, c1 key]
    rfl

/-- Witness for the amended C1: id `b` fails validation (its include flag
is a string) and is dropped; id `a` is parsed and kept. -/
theorem C1_amended_validation_failures_dropped_witness :
    ∃ r, format_stats statsVal = .ok r ∧
      ∀ key, key ≠ "has_stats" →
        lookupA r key = if key ∈ base_keys statsVal
          then (statsItemOf statsVal key).filter (fun it => it.incl) else none :=
  C1_amended_validation_failures_dropped statsVal (by decide)

/-- C4: whenever `format_stats` produces a result, the result has exactly
one entry whose item id is `has_stats`; that entry is not included for
surfacing, and its value is the boolean saying whether at least one parsed
stat passed the include-filter. -/
theorem C4_has_stats_entry (stats : PrimDict) (r : StatsDict)
    (h : format_stats stats = .ok r) :
    r.countP (fun kv => decide (kv.2.id = "has_stats")) = 1 ∧
    ∃ it, lookupA r "has_stats" = some it ∧ it.incl = false ∧
      (it.value = Prim.pBool true ↔ ∃ k ∈ base_keys stats, survives stats k = true) := by
  simp only [format_stats] at h
  cases hcoll : formatStatsAux stats (base_keys stats) [] with
  | error e => rw [hcoll] at h; exact absurd h (by simp)
  | ok coll =>
    rw [hcoll] at h
    replace h : (Except.ok (insertA coll "has_stats"
      { id := "has_stats", label := "Has Stats?",
        value := .pBool (decide (0 < coll.length)),
        description := "Indicates whether there are statistics for this table",
        incl := false }) : Except CatalogError StatsDict) = Except.ok r := h
    rw [Except.ok.injEq] at h
    obtain ⟨c1, c2, c3⟩ := formatStatsAux_spec (base_keys stats) [] coll
      (List.nodup_dedup _) (fun k _ => rfl) hcoll
    have hids : ∀ kv ∈ coll, kv.2.id = kv.1 :=
      c3 (fun kv hkv => absurd hkv (List.not_mem_nil kv))
    have hfk : coll.map Prod.fst = (base_keys stats).filter (fun k => survives stats k) := by
      simpa using c2
    have hnodup : (coll.map Prod.fst).Nodup := by
      rw [hfk]
      exact (List.nodup_dedup _).filter _
    have hidsr : ∀ kv ∈ r, kv.2.id = kv.1 := by
      intro kv hkv
      rw [← h] at hkv
      rcases mem_insertA hkv with hkv | hkv
      · exact hids kv hkv
      · rw [hkv]
    have hmemr : "has_stats" ∈ r.map Prod.fst := by
      rw [← h]
      exact mem_map_fst_of_lookupA (lookupA_insertA_self _ _ _)
    have hnodupr : (r.map Prod.fst).Nodup := by
      rw [← h]
      cases hhs : lookupA coll "has_stats" with
      | some prior =>
        rw [map_fst_insertA_of_some _ hhs]
        exact hnodup
      | none =>
        rw [map_fst_insertA _ hhs]
        rw [List.nodup_append]
        refine ⟨hnodup, List.nodup_singleton _, ?_⟩
        intro a ha hb
        rw [List.mem_singleton] at hb
        subst hb
        exact (lookupA_eq_none_iff.mp hhs) ha
    refine ⟨?_, ?_⟩
    · have hcong : r.countP (fun kv => decide (kv.2.id = "has_stats")) =
          r.countP (fun kv => decide (kv.1 = "has_stats")) := by
        refine List.countP_congr ?_
        intro kv hkv
        rw [hidsr kv hkv]
      rw [hcong]
      have hmapc : r.countP (fun kv => decide (kv.1 = "has_stats")) =
          (r.map Prod.fst).countP (fun k => decide (k = "has_stats")) := by
        rw [List.countP_map]
        rfl
      rw [hmapc]
      exact countP_eq_one_of_nodup_mem hnodupr hmemr
    · refine ⟨_, by rw [← h]; exact lookupA_insertA_self _ _ _, rfl, ?_⟩
      show Prim.pBool (decide (0 < coll.length)) = Prim.pBool true ↔
        ∃ k ∈ base_keys stats, survives stats k = true
      constructor
      · intro hv
        have hlen : 0 < coll.length := of_decide_eq_true (Prim.pBool.inj hv)
        have hne : coll.map Prod.fst ≠ [] := by
          intro hc
          rw [List.map_eq_nil_iff] at hc
          rw [hc] at hlen
          exact Nat.lt_irrefl 0 hlen
        rw [hfk] at hne
        exact filter_ne_nil_iff.mp hne
      · intro hex
        have hne : (base_keys stats).filter (fun k => survives stats k) ≠ [] :=
          filter_ne_nil_iff.mpr hex
        rw [← hfk] at hne
        have hlen : 0 < coll.length := by
          cases hc : coll with
          | nil => rw [hc] at hne; simp at hne
          | cons a l => simp [hc]
        rw [decide_eq_true hlen]

/-- Witness for C4 at a mapping with one surviving stat. -/
theorem C4_has_stats_entry_witness :
    rVal.countP (fun kv => decide (kv.2.id = "has_stats")) = 1 ∧
    ∃ it, lookupA rVal "has_stats" = some it ∧ it.incl = false ∧
      (it.value = Prim.pBool true ↔ ∃ k ∈ base_keys statsVal, survives statsVal k = true) :=
  C4_has_stats_entry statsVal rVal (by decide)

theorem matchedPairs_eq_pairsOf (c : Catalog) (man : List ManifestEntry) :
    matchedPairs c man = pairsOf (get_unique_id_mapping man) (tablesOf c) := rfl

theorem lookupA_append_none_iff {α β : Type} [DecidableEq α]
    {m₁ m₂ : List (α × β)} {k : α} :
    lookupA (m₁ ++ m₂) k = none ↔ lookupA m₁ k = none ∧ lookupA m₂ k = none := by
  constructor
  · intro h
    cases h₁ : lookupA m₁ k with
    | some v => rw [lookupA_append_left m₂ h₁] at h; exact Option.noConfusion h
    | none => exact ⟨rfl, by rw [lookupA_append_right m₂ h₁] at h; exact h⟩
  · rintro ⟨h₁, h₂⟩
    rw [lookupA_append_right m₂ h₁]
    exact h₂

theorem lookupA_map_pair {α β : Type} [DecidableEq α] {f : α → β} :
    ∀ {l : List α} {x : α},
      lookupA (l.map (fun u => (u, f u))) x = none ↔ x ∉ l := by
  intro l
  induction l with
  | nil => simp [lookupA]
  | cons a l ih =>
    intro x
    by_cases ha : a = x
    · subst ha
      simp [lookupA]
    · simp only [List.map_cons, lookupA, if_neg ha, ih, List.mem_cons]
      constructor
      · intro h hc
        rcases hc with hc | hc
        · exact ha hc.symm
        · exact h hc
      · intro h hc
        exact h (Or.inr hc)

theorem insertUnique_ok {t : CatalogTable} :
    ∀ (uids : List String) (nodes r : List (String × CatalogTable)),
      insertUnique t uids nodes = .ok r →
      r = nodes ++ uids.map (fun u => (u, t.replace u))
  | [], nodes, r, h => by
    have h' : nodes = r := Except.ok.inj h
    simp [← h']
  | uid :: uids, nodes, r, h => by
    simp only [insertUnique] at h
    cases hl : lookupA nodes uid with
    | some t' => rw [hl] at h; exact absurd h (by simp)
    | none =>
      rw [hl] at h
      have h2 := insertUnique_ok uids (insertA nodes uid (t.replace uid)) r h
      rw [h2, insertA_of_lookupA_none _ hl]
      simp

theorem insertUnique_isOk {t : CatalogTable} :
    ∀ (uids : List String) (nodes : List (String × CatalogTable)),
      (∃ r, insertUnique t uids nodes = .ok r) ↔
        (uids.Nodup ∧ ∀ u ∈ uids, lookupA nodes u = none)
  | [], nodes => by
    refine iff_of_true ⟨nodes, rfl⟩ ⟨List.nodup_nil, ?_⟩
    intro u hu
    cases hu
  | uid :: uids, nodes => by
    cases hl : lookupA nodes uid with
    | some t' =>
      constructor
      · rintro ⟨r, hr⟩
        simp only [insertUnique, hl] at hr
        exact absurd hr (by simp)
      · rintro ⟨hnd, hnone⟩
        have h1 := hnone uid (List.mem_cons_self uid uids)
        rw [hl] at h1
        exact absurd h1 (by simp)
    | none =>
      have ih := @insertUnique_isOk t uids (insertA nodes uid (t.replace uid))
      constructor
      · rintro ⟨r, hr⟩
        simp only [insertUnique, hl] at hr
        obtain ⟨hnd, hnone⟩ := ih.mp ⟨r, hr⟩
        refine ⟨List.nodup_cons.mpr ⟨?_, hnd⟩, ?_⟩
        · intro hmem
          have h2 := hnone uid hmem
          rw [lookupA_insertA_self] at h2
          exact Option.noConfusion h2
        · intro u hu
          rcases List.mem_cons.mp hu with hu | hu
          · rw [hu]; exact hl
          · have h2 := hnone u hu
            by_cases he : u = uid
            · rw [he]; exact hl
            · rw [lookupA_insertA_ne _ _ he] at h2
              exact h2
      · rintro ⟨hnd, hnone⟩
        obtain ⟨huid, hnd'⟩ := List.nodup_cons.mp hnd
        have hins : ∀ u ∈ uids, lookupA (insertA nodes uid (t.replace uid)) u = none := by
          intro u hu
          have hne : u ≠ uid := fun e => huid (by rw [← e]; exact hu)
          rw [lookupA_insertA_ne _ _ hne]
          exact hnone u (List.mem_cons_of_mem _ hu)
        obtain ⟨r, hr⟩ := ih.mpr ⟨hnd', hins⟩
        exact ⟨r, by simp only [insertUnique, hl]; exact hr⟩

theorem makeUniqueAux_ok {mapping : List (CatalogKey × List String)} :
    ∀ (ts : List CatalogTable) (nodes r : List (String × CatalogTable)),
      makeUniqueAux mapping ts nodes = .ok r →
      r = nodes ++ (pairsOf mapping ts).map (fun p => (p.1, p.2.replace p.1))
  | [], nodes, r, h => by
    have h' : nodes = r := Except.ok.inj h
    simp [pairsOf, ← h']
  | t :: ts, nodes, r, h => by
    simp only [makeUniqueAux] at h
    cases hi : insertUnique t ((lookupA mapping t.key).getD []) nodes with
    | error e => rw [hi] at h; exact absurd h (by simp)
    | ok nodes' =>
      rw [hi] at h
      have h1 := insertUnique_ok _ nodes nodes' hi
      have h2 := makeUniqueAux_ok ts nodes' r h
      rw [h2, h1]
      simp [pairsOf, Function.comp, List.append_assoc]

theorem makeUniqueAux_isOk {mapping : List (CatalogKey × List String)} :
    ∀ (ts : List CatalogTable) (nodes : List (String × CatalogTable)),
      (∃ r, makeUniqueAux mapping ts nodes = .ok r) ↔
        (((pairsOf mapping ts).map Prod.fst).Nodup ∧
          ∀ u ∈ (pairsOf mapping ts).map Prod.fst, lookupA nodes u = none)
  | [], nodes => by
    refine iff_of_true ⟨nodes, rfl⟩ ⟨by simp [pairsOf], ?_⟩
    intro u hu
    simp [pairsOf] at hu
  | t :: ts, nodes => by
    have hps : (pairsOf mapping (t :: ts)).map Prod.fst =
        ((lookupA mapping t.key).getD []) ++ (pairsOf mapping ts).map Prod.fst := by
      simp only [pairsOf, List.flatMap_cons, List.map_append, List.map_map]
      rw [show (Prod.fst ∘ fun uid => ((uid, t) : String × CatalogTable)) = fun u => u from rfl,
        List.map_id']
    rw [hps]
    constructor
    · rintro ⟨r, hr⟩
      simp only [makeUniqueAux] at hr
      cases hi : insertUnique t ((lookupA mapping t.key).getD []) nodes with
      | error e => rw [hi] at hr; exact absurd hr (by simp)
      | ok nodes' =>
        rw [hi] at hr
        obtain ⟨hnodup_u, hnone_u⟩ := (insertUnique_isOk _ nodes).mp ⟨nodes', hi⟩
        obtain ⟨hnodup_p, hnone_p⟩ := (makeUniqueAux_isOk ts nodes').mp ⟨r, hr⟩
        have hn' := insertUnique_ok _ nodes nodes' hi
        have hsplit : ∀ u ∈ (pairsOf mapping ts).map Prod.fst,
            lookupA nodes u = none ∧
              u ∉ ((lookupA mapping t.key).getD []) := by
          intro u hu
          have h2 := hnone_p u hu
          rw [hn', lookupA_append_none_iff] at h2
          exact ⟨h2.1, lookupA_map_pair.mp h2.2⟩
        refine ⟨List.nodup_append.mpr ⟨hnodup_u, hnodup_p, ?_⟩, ?_⟩
        · intro a ha hb
          exact (hsplit a hb).2 ha
        · intro u hu
          rcases List.mem_append.mp hu with hu | hu
          · exact hnone_u u hu
          · exact (hsplit u hu).1
    · rintro ⟨hnd, hnone⟩
      obtain ⟨hnd_u, hnd_p, hdisj⟩ := List.nodup_append.mp hnd
      obtain ⟨nodes', hi⟩ :=
        (@insertUnique_isOk t ((lookupA mapping t.key).getD []) nodes).mpr
          ⟨hnd_u, fun u hu => hnone u (List.mem_append.mpr (Or.inl hu))⟩
      have hn' := insertUnique_ok _ nodes nodes' hi
      have hcond : ∀ u ∈ (pairsOf mapping ts).map Prod.fst,
          lookupA nodes' u = none := by
        intro u hu
        rw [hn', lookupA_append_none_iff]
        refine ⟨hnone u (List.mem_append.mpr (Or.inr hu)), ?_⟩
        rw [lookupA_map_pair]
        intro hc
        exact hdisj hc hu
      obtain ⟨r, hr⟩ := (makeUniqueAux_isOk ts nodes').mpr ⟨hnd_p, hcond⟩
      exact ⟨r, by simp only [makeUniqueAux, hi]; exact hr⟩

/-- Counterexample to C3: `make_unique_id_map` raises the ambiguous-match
error on a manifest with a single entry (so no two manifest entries can
share an identifier, let alone point at distinct physical keys): two
case-differing catalog entries fold to the same matching key and both
claim the one identifier. -/
theorem C3_counterexample_single_entry_ambiguity :
    make_unique_id_map catCase manOne = .error (.ambiguousMatch "model.a") ∧
      manOne.length = 1 := by decide

/-- C3 (amended): resolution raises the ambiguous-match error iff some
logical identifier occurs more than once among the matched (identifier,
table) pairs — which can also happen with a single manifest entry whose
folded key matches two case-differing catalog entries; on success the
result is exactly the matched pairs, each matched table appearing under
exactly the identifiers that resolve to it. -/
theorem C3_amended_resolution_iff (c : Catalog) (man : List ManifestEntry) :
    ((∃ r, make_unique_id_map c man = .ok r) ↔
      ((matchedPairs c man).map Prod.fst).Nodup) ∧
    ∀ r, make_unique_id_map c man = .ok r →
      r = (matchedPairs c man).map (fun p => (p.1, p.2.replace p.1)) := by
  constructor
  · rw [matchedPairs_eq_pairsOf]
    have h := @makeUniqueAux_isOk (get_unique_id_mapping man) (tablesOf c) []
    constructor
    · intro hok
      exact (h.mp hok).1
    · intro hnd
      exact h.mpr ⟨hnd, fun u _ => rfl⟩
  · intro r hr
    have h := @makeUniqueAux_ok (get_unique_id_mapping man) (tablesOf c) [] r hr
    rw [matchedPairs_eq_pairsOf]
    simpa using h

/-- Witness for the amended C3 at a one-table catalog and a one-entry
manifest: resolution succeeds and equals the matched pairs. -/
theorem C3_amended_resolution_iff_witness :
    [("model.a", tableDstResolved)] =
      (matchedPairs [(keyDst, tableNoIdx)] manOne).map (fun p => (p.1, p.2.replace p.1)) :=
  (C3_amended_resolution_iff [(keyDst, tableNoIdx)] manOne).2
    [("model.a", tableDstResolved)] (by decide)

theorem pairsOf_nil_of_no_match {k : CatalogKey} {us : List String} :
    ∀ {l : List CatalogTable},
      l.filter (fun t' => decide (t'.key = k)) = [] →
      pairsOf [(k, us)] l = [] := by
  intro l
  induction l with
  | nil => intro _; rfl
  | cons a l ih =>
    intro h
    rw [List.filter_cons] at h
    by_cases hk : a.key = k
    · rw [if_pos (by simp [hk])] at h
      exact absurd h (by simp)
    · rw [if_neg (by simp [hk])] at h
      have hla : lookupA [(k, us)] a.key = none := by
        simp only [lookupA, if_neg (Ne.symm hk)]
      simp only [pairsOf, List.flatMap_cons, hla, Option.getD_none, List.map_nil,
        List.nil_append]
      exact ih h

theorem pairsOf_single {k : CatalogKey} {us : List String} :
    ∀ {l : List CatalogTable} {t : CatalogTable},
      l.filter (fun t' => decide (t'.key = k)) = [t] →
      pairsOf [(k, us)] l = us.map (fun u => (u, t)) := by
  intro l
  induction l with
  | nil => intro t h; exact absurd h (by simp)
  | cons a l ih =>
    intro t h
    rw [List.filter_cons] at h
    by_cases hk : a.key = k
    · rw [if_pos (by simp [hk])] at h
      have hat : a = t := by
        have := List.cons.injEq a (l.filter (fun t' => decide (t'.key = k))) t [] ▸ h
        exact (List.cons.inj h).1
      have hrest : l.filter (fun t' => decide (t'.key = k)) = [] := (List.cons.inj h).2
      have hla : lookupA [(k, us)] a.key = some us := by
        simp [lookupA, hk.symm]
      simp only [pairsOf, List.flatMap_cons, hla, Option.getD_some]
      rw [show (l.flatMap fun t' =>
          ((lookupA [(k, us)] t'.key).getD []).map (fun uid => (uid, t'))) =
          pairsOf [(k, us)] l from rfl]
      rw [pairsOf_nil_of_no_match hrest, List.append_nil, hat]
    · rw [if_neg (by simp [hk])] at h
      have hla : lookupA [(k, us)] a.key = none := by
        simp only [lookupA, if_neg (Ne.symm hk)]
      simp only [pairsOf, List.flatMap_cons, hla, Option.getD_none, List.map_nil,
        List.nil_append]
      exact ih h

/-- C7: two manifest entries with distinct logical identifiers resolving to
the same folded physical key, matched by exactly one catalog table, resolve
without ambiguity: the result holds both identifiers, each mapped to a copy
of that one table with identical metadata, columns and stats. -/
theorem C7_shared_key_two_identifiers (c : Catalog) (e₁ e₂ : ManifestEntry) (t : CatalogTable)
    (hne : e₁.unique_id ≠ e₂.unique_id)
    (hkey : mapping_key e₂ = mapping_key e₁)
    (hmatch : (tablesOf c).filter (fun t' => decide (t'.key = mapping_key e₁)) = [t]) :
    make_unique_id_map c [e₁, e₂] =
      .ok [(e₁.unique_id, t.replace e₁.unique_id), (e₂.unique_id, t.replace e₂.unique_id)] ∧
    (t.replace e₁.unique_id).metadata = (t.replace e₂.unique_id).metadata ∧
    (t.replace e₁.unique_id).columns = (t.replace e₂.unique_id).columns ∧
    (t.replace e₁.unique_id).stats = (t.replace e₂.unique_id).stats := by
  have hmap : get_unique_id_mapping [e₁, e₂] =
      [(mapping_key e₁, [e₁.unique_id, e₂.unique_id])] := by
    simp [get_unique_id_mapping, lookupA, insertA, hkey]
  have hpairs : pairsOf (get_unique_id_mapping [e₁, e₂]) (tablesOf c) =
      [(e₁.unique_id, t), (e₂.unique_id, t)] := by
    rw [hmap, pairsOf_single hmatch]
    rfl
  have hnd : ((pairsOf (get_unique_id_mapping [e₁, e₂]) (tablesOf c)).map Prod.fst).Nodup := by
    rw [hpairs]
    simp [hne]
  obtain ⟨r, hr⟩ := (@makeUniqueAux_isOk (get_unique_id_mapping [e₁, e₂]) (tablesOf c) []).mpr
    ⟨hnd, fun u _ => rfl⟩
  have hshape := @makeUniqueAux_ok (get_unique_id_mapping [e₁, e₂]) (tablesOf c) [] r hr
  rw [hpairs] at hshape
  simp only [List.nil_append, List.map_cons, List.map_nil] at hshape
  refine ⟨?_, rfl, rfl, rfl⟩
  show makeUniqueAux (get_unique_id_mapping [e₁, e₂]) (tablesOf c) [] = _
  rw [hr, hshape]

/-- Witness for C7: one physical table, two logical identifiers. -/
theorem C7_shared_key_two_identifiers_witness :
    make_unique_id_map [(keyDst, tableDst2)]
        [⟨"model.a", "d", "s", "t"⟩, ⟨"source.a", "d", "s", "t"⟩] =
      .ok [("model.a", tableDst2.replace "model.a"), ("source.a", tableDst2.replace "source.a")] ∧
    (tableDst2.replace "model.a").metadata = (tableDst2.replace "source.a").metadata ∧
    (tableDst2.replace "model.a").columns = (tableDst2.replace "source.a").columns ∧
    (tableDst2.replace "model.a").stats = (tableDst2.replace "source.a").stats :=
  C7_shared_key_two_identifiers [(keyDst, tableDst2)]
    ⟨"model.a", "d", "s", "t"⟩ ⟨"source.a", "d", "s", "t"⟩ tableDst2
    (by decide) (by decide) (by decide)

theorem keyOfRow_eq_some {r : PrimDict} {key : CatalogKey} :
    keyOfRow r = some key ↔ catalogKeyOf r = .ok key := by
  simp only [keyOfRow]
  cases h : catalogKeyOf r <;> simp

theorem add_column_preserves {c c' : Catalog} {data : PrimDict}
    (h : add_column c data = (c', none)) :
    ∀ key t, lookupA c key = some t →
      ∃ t', lookupA c' key = some t' ∧ t'.metadata = t.metadata ∧ t'.stats = t.stats := by
  intro key t hsome
  obtain ⟨key₀, t₀, hk, hcase⟩ := add_column_ok_cases h
  rcases hcase with ⟨hl, hac⟩ | ⟨hl, hb, hac⟩ <;>
    obtain ⟨v, idx, col, hv, hi, hcol, hc'⟩ := addColTo_ok hac
  · by_cases hkey : key = key₀
    · subst hkey
      rw [hl] at hsome
      have ht : t₀ = t := Option.some.inj hsome
      refine ⟨{ t₀ with columns := insertA t₀.columns col.name col }, ?_, ?_, ?_⟩
      · rw [hc']
        exact lookupA_insertA_self _ _ _
      · rw [← ht]
      · rw [← ht]
    · refine ⟨t, ?_, rfl, rfl⟩
      rw [hc', lookupA_insertA_ne _ _ hkey]
      exact hsome
  · by_cases hkey : key = key₀
    · subst hkey
      rw [hl] at hsome
      exact Option.noConfusion hsome
    · refine ⟨t, ?_, rfl, rfl⟩
      rw [hc', lookupA_insertA_ne _ _ hkey, lookupA_insertA_ne _ _ hkey]
      exact hsome

theorem add_column_none_of_other {c c' : Catalog} {data : PrimDict}
    (h : add_column c data = (c', none)) :
    ∀ key, lookupA c key = none → keyOfRow data ≠ some key → lookupA c' key = none := by
  intro key hnone hneq
  obtain ⟨key₀, t₀, hk, hcase⟩ := add_column_ok_cases h
  have hkey : key ≠ key₀ := by
    intro he
    exact hneq (by rw [he]; exact keyOfRow_eq_some.mpr hk)
  rcases hcase with ⟨hl, hac⟩ | ⟨hl, hb, hac⟩ <;>
    obtain ⟨v, idx, col, hv, hi, hcol, hc'⟩ := addColTo_ok hac
  · rw [hc', lookupA_insertA_ne _ _ hkey]
    exact hnone
  · rw [hc', lookupA_insertA_ne _ _ hkey, lookupA_insertA_ne _ _ hkey]
    exact hnone

theorem add_column_creates {c c' : Catalog} {data : PrimDict} {key : CatalogKey}
    (h : add_column c data = (c', none))
    (hk : catalogKeyOf data = .ok key)
    (hnone : lookupA c key = none) :
    ∃ t₀ t', build_catalog_table data = .ok t₀ ∧ lookupA c' key = some t' ∧
      t'.metadata = t₀.metadata ∧ t'.stats = t₀.stats := by
  obtain ⟨key', t₀, hk', hcase⟩ := add_column_ok_cases h
  rw [hk] at hk'
  have hke : key' = key := (Except.ok.inj hk').symm
  subst hke
  rcases hcase with ⟨hl, hac⟩ | ⟨hl, hb, hac⟩
  · rw [hnone] at hl
    exact Option.noConfusion hl
  · obtain ⟨v, idx, col, hv, hi, hcol, hc'⟩ := addColTo_ok hac
    rw [insertA_insertA] at hc'
    exact ⟨t₀, { t₀ with columns := insertA t₀.columns col.name col }, hb,
      by rw [hc']; exact lookupA_insertA_self _ _ _, rfl, rfl⟩

theorem catalogBuild_preserves :
    ∀ (rows : List PrimDict) (c cat : Catalog),
      catalogBuild c rows = (cat, none) →
      ∀ key t, lookupA c key = some t →
        ∃ t', lookupA cat key = some t' ∧ t'.metadata = t.metadata ∧ t'.stats = t.stats
  | [], c, cat, h, key, t, hsome => by
    have hc : c = cat := congrArg Prod.fst h
    rw [← hc]
    exact ⟨t, hsome, rfl, rfl⟩
  | row :: rows, c, cat, h, key, t, hsome => by
    simp only [catalogBuild] at h
    cases had : add_column c row with
    | mk c₁ eo =>
      cases eo with
      | some e => rw [had] at h; exact absurd h (by simp)
      | none =>
        rw [had] at h
        obtain ⟨t₁, h1, hm1, hs1⟩ := add_column_preserves had key t hsome
        obtain ⟨t', h2, hm2, hs2⟩ := catalogBuild_preserves rows c₁ cat h key t₁ h1
        exact ⟨t', h2, by rw [hm2, hm1], by rw [hs2, hs1]⟩

theorem catalogBuild_first_key {key : CatalogKey} :
    ∀ (rows : List PrimDict) (c cat : Catalog) (t : CatalogTable),
      catalogBuild c rows = (cat, none) →
      lookupA c key = none →
      lookupA cat key = some t →
      ∃ row t₀, rows.find? (fun r => decide (keyOfRow r = some key)) = some row ∧
        build_catalog_table row = .ok t₀ ∧ t.metadata = t₀.metadata ∧ t.stats = t₀.stats
  | [], c, cat, t, h, hnone, hsome => by
    have hc : c = cat := congrArg Prod.fst h
    rw [← hc, hnone] at hsome
    exact Option.noConfusion hsome
  | row :: rows, c, cat, t, h, hnone, hsome => by
    simp only [catalogBuild] at h
    cases had : add_column c row with
    | mk c₁ eo =>
      cases eo with
      | some e => rw [had] at h; exact absurd h (by simp)
      | none =>
        rw [had] at h
        by_cases hk : keyOfRow row = some key
        · obtain ⟨t₀, t₂, hb, h1, hm1, hs1⟩ :=
            add_column_creates had (keyOfRow_eq_some.mp hk) hnone
          obtain ⟨t', h2, hm2, hs2⟩ := catalogBuild_preserves rows c₁ cat h key t₂ h1
          rw [hsome] at h2
          have ht : t' = t := (Option.some.inj h2).symm
          subst ht
          refine ⟨row, t₀, ?_, hb, by rw [hm2, hm1], by rw [hs2, hs1]⟩
          rw [List.find?_cons_of_pos rows (decide_eq_true hk)]
        · have h1 : lookupA c₁ key = none := add_column_none_of_other had key hnone hk
          obtain ⟨row', t₀, hf, hb, hm, hs⟩ :=
            catalogBuild_first_key rows c₁ cat t h h1 hsome
          refine ⟨row', t₀, ?_, hb, hm, hs⟩
          rw [List.find?_cons_of_neg rows (by simp [hk])]
          exact hf

/-- C6: in a successful build, every table entry's metadata and stats are
exactly those produced by `build_catalog_table` on the first row of the
sequence bearing that entry's key; later rows for the key never change
metadata or stats (they only accumulate columns). -/
theorem C6_metadata_and_stats_from_first_row (rows : List PrimDict) (cat : Catalog)
    (key : CatalogKey) (t : CatalogTable)
    (h : buildCatalog rows = (cat, none))
    (hsome : lookupA cat key = some t) :
    ∃ row t₀, rows.find? (fun r => decide (keyOfRow r = some key)) = some row ∧
      build_catalog_table row = .ok t₀ ∧ t.metadata = t₀.metadata ∧ t.stats = t₀.stats :=
  catalogBuild_first_key rows [] cat t h rfl hsome

/-- Witness for C6: the second row for the key carries a different table
type, yet the entry's metadata comes from the first row. -/
theorem C6_metadata_and_stats_from_first_row_witness :
    ∃ row t₀,
      [rowB1, rowB2].find? (fun r => decide (keyOfRow r = some keyDst)) = some row ∧
      build_catalog_table row = .ok t₀ ∧ tableB.metadata = t₀.metadata ∧
      tableB.stats = t₀.stats :=
  C6_metadata_and_stats_from_first_row [rowB1, rowB2] [(keyDst, tableB)] keyDst tableB
    (by decide) (by decide)
